import Mathlib

/-!
Verification development for the `geo` ear-cut triangulation wrapper
(`src/geo/src/algorithm/triangulate_earcut.rs`).

Shallow embedding notes:
* Coordinates are modelled as exact integers (`ℤ`).  The Rust code is generic
  over `CoordFloat`; every geometric predicate it relies on is a sign test of
  an exact cross-product expression, which the integer model captures
  faithfully, and all concrete scenario inputs have integer coordinates.
* Rust `Vec<T>` is modelled as `List`, mutation as explicit state passing.
* The fallible indexing `vertices[i]` (which panics when out of bounds) is
  modelled with `Option`/an explicit `panicked` outcome.
* The `earcutr::earcut` engine is an external crate whose source is not part
  of this repository; it is modelled from the specification (see the
  definitions marked "Modelled from the spec").
-/

namespace Geo

/-- A coordinate: the `geo` `Coord` struct with `x`/`y` fields. -/
structure Coord where
  x : ℤ
  y : ℤ
deriving DecidableEq

/-- A line string: the `geo` `LineString` newtype over `Vec<Coord>`
(`line_string.0` is modelled as the field `coords`). -/
structure LineString where
  coords : List Coord
deriving DecidableEq

/-- A polygon: one exterior `LineString` plus interior `LineString`s,
as exposed by `Polygon::exterior()` and `Polygon::interiors()`. -/
structure Polygon where
  exterior : LineString
  interiors : List LineString
deriving DecidableEq

/-- The `EarcutrInput` struct of `triangulate_earcut.rs`. -/
structure EarcutrInput where
  vertexes : List ℤ
  interior_indexes : List ℕ
deriving DecidableEq

/-- Source function `flat_line_string_coords_2`: pushes `coord.x` then
`coord.y` for every coordinate of the line string onto the vertex buffer. -/
def flat_line_string_coords_2 (line_string : LineString) (vertexes : List ℤ) : List ℤ :=
  line_string.coords.foldl (fun acc coord => acc ++ [coord.x, coord.y]) vertexes

/-- Source function `polygon_to_earcutr_input`: flattens the exterior ring,
then for each interior ring records `vertexes.len() / 2` before flattening it.
(The `debug_assert!` ring-length checks are debug-only and compile to nothing
in release builds, so they are not part of the modelled behaviour.) -/
def polygon_to_earcutr_input (polygon : Polygon) : EarcutrInput :=
  let vertexes := flat_line_string_coords_2 polygon.exterior []
  let r := polygon.interiors.foldl
    (fun acc interior =>
      (flat_line_string_coords_2 interior acc.1, acc.2 ++ [acc.1.length / 2]))
    (vertexes, ([] : List ℕ))
  ⟨r.1, r.2⟩

/-- The flat x/y expansion of a line string, used to state the Ring
Flattener's output contract. -/
def flatCoords (ls : LineString) : List ℤ :=
  ls.coords.flatMap (fun c => [c.x, c.y])

/-- A working vertex of the Triangulation Engine: its original vertex index
in the flat buffer plus its coordinate (spec §3, Linked Vertex Ring). -/
abbrev IVert := ℕ × Coord

/-- Junk vertex used as a default for (always in-range) list lookups. -/
def dummyIV : IVert := (0, ⟨0, 0⟩)

/-- Pairs up consecutive entries of a flat buffer into coordinates. -/
def unflatten : List ℤ → List Coord
  | x :: y :: rest => ⟨x, y⟩ :: unflatten rest
  | _ => []

/-- The implied vertex array of a flat buffer, with original vertex indices. -/
def enumCoords (vertices : List ℤ) : List IVert :=
  (unflatten vertices).enum

/-- Twice the signed area of triangle `a b c` (positive iff counter-clockwise);
the sign test the spec's step 6 bases all geometric predicates on. -/
def cross (a b c : Coord) : ℤ :=
  (b.x - a.x) * (c.y - a.y) - (b.y - a.y) * (c.x - a.x)

/-- Strict point-in-triangle test for a counter-clockwise triangle: points
exactly on an edge count as outside (spec §4.2 step 6). -/
def insideStrict (a b c p : Coord) : Bool :=
  decide (0 < cross a b p) && decide (0 < cross b c p) && decide (0 < cross c a p)

/-- Twice the signed area of a ring (shoelace formula, circular). -/
def signedArea2 (ring : List IVert) : ℤ :=
  (ring.zip (ring.rotate 1)).foldl
    (fun s ab => s + (ab.1.2.x * ab.2.2.y - ab.2.2.x * ab.1.2.y)) 0

/-- Modelled from the spec (§4.2 step 1): ring construction skips vertices
equal to their immediate predecessor. -/
def dedupAux (prev : Coord) : List IVert → List IVert
  | [] => []
  | v :: rest => if v.2 = prev then dedupAux prev rest else v :: dedupAux v.2 rest

/-- Modelled from the spec (§3): the engine treats rings as open, so a
closing duplicate of the first point is dropped. -/
def dropClosing (l : List IVert) : List IVert :=
  match l.head?, l.getLast? with
  | some h, some t => if 1 < l.length ∧ t.2 = h.2 then l.dropLast else l
  | _, _ => l

/-- Modelled from the spec (§4.2 step 1): the engine's view of one input
ring — consecutive duplicates skipped, closing duplicate dropped. -/
def buildRing (l : List IVert) : List IVert :=
  match l with
  | [] => []
  | v :: rest => dropClosing (v :: dedupAux v.2 rest)

/-- Modelled from the spec (§4.2 step 2): the outer ring is normalised to a
counter-clockwise winding. -/
def orientCCW (ring : List IVert) : List IVert :=
  if signedArea2 ring < 0 then ring.reverse else ring

/-- Modelled from the spec (§4.2 step 2): hole rings are wound opposite to
the (counter-clockwise) exterior. -/
def orientCW (ring : List IVert) : List IVert :=
  if 0 < signedArea2 ring then ring.reverse else ring

/-- Modelled from the spec (§4.2 step 5): the ear test at ring position `i` —
the corner must have the established (counter-clockwise) winding and no other
remaining ring vertex may lie strictly inside the corner triangle. -/
def isEar (ring : List IVert) (i : ℕ) : Bool :=
  let n := ring.length
  let a := (ring.getD ((i + n - 1) % n) dummyIV).2
  let b := (ring.getD i dummyIV).2
  let c := (ring.getD ((i + 1) % n) dummyIV).2
  decide (0 < cross a b c) &&
    (List.range n).all fun j =>
      j == i || j == (i + n - 1) % n || j == (i + 1) % n ||
        !insideStrict a b c (ring.getD j dummyIV).2

/-- Modelled from the spec (§4.2 step 5): the ear-clipping loop. Each found
ear emits the triple of original vertex indices and removes the ear vertex;
if a full scan finds no ear the engine degrades gracefully, returning the
triangles emitted so far (the spec's recovery pass is modelled by this final
graceful stop; no claim under verification depends on the intermediate
relaxed-tolerance or ring-splitting recovery attempts).  The fuel argument
only makes the recursion structural; it is always called with enough fuel. -/
def earClipFuel : ℕ → List IVert → List (ℕ × ℕ × ℕ) × List IVert
  | 0, ring => ([], ring)
  | fuel + 1, ring =>
    if ring.length < 3 then ([], ring)
    else
      match (List.range ring.length).find? (isEar ring) with
      | none => ([], ring)
      | some i =>
        let a := ring.getD ((i + ring.length - 1) % ring.length) dummyIV
        let b := ring.getD i dummyIV
        let c := ring.getD ((i + 1) % ring.length) dummyIV
        let r := earClipFuel fuel (ring.eraseIdx i)
        ((a.1, b.1, c.1) :: r.1, r.2)

/-- Squared euclidean distance between two coordinates. -/
def dist2 (a b : Coord) : ℤ :=
  (a.x - b.x) * (a.x - b.x) + (a.y - b.y) * (a.y - b.y)

/-- Position of a rightmost (maximum-x) vertex of a hole ring (spec §4.2
step 3: the hole's bridge candidate). -/
def argmaxXIdx (l : List IVert) : ℕ :=
  (List.range l.length).foldl
    (fun best i =>
      if (l.getD best dummyIV).2.x < (l.getD i dummyIV).2.x then i else best) 0

/-- Modelled from the spec (§4.2 step 3 and §9): the bridge endpoint on the
outer ring for a hole's rightmost vertex `m` — a vertex to the right of `m`
(falling back to the whole ring) at minimal squared distance.  The spec
itself notes the exact visibility/tie-breaking heuristic is an
implementation-level choice that affects only bridge placement; this model
fixes one deterministic rule. -/
def bridgeTargetIdx (ring : List IVert) (m : Coord) : ℕ :=
  let candidates := (List.range ring.length).filter
    (fun i => decide (m.x ≤ (ring.getD i dummyIV).2.x))
  let pool := if candidates = [] then List.range ring.length else candidates
  pool.foldl
    (fun best i =>
      if dist2 (ring.getD i dummyIV).2 m < dist2 (ring.getD best dummyIV).2 m
      then i else best)
    (pool.headD 0)

/-- Modelled from the spec (§4.2 step 3): splice a hole ring into the outer
ring by duplicating both bridge endpoints, so the hole becomes part of one
single ring (this adds hole-size + 2 vertices to the working ring). -/
def spliceHole (ring hole : List IVert) : List IVert :=
  if hole = [] ∨ ring = [] then ring
  else
    let mi := argmaxXIdx hole
    let hrot := hole.rotate mi
    let m := hrot.getD 0 dummyIV
    let b := bridgeTargetIdx ring m.2
    let bv := ring.getD b dummyIV
    ring.take (b + 1) ++ hrot ++ [m, bv] ++ ring.drop (b + 1)

/-- The vertex segments of the interior rings, cut out of the implied vertex
array by the hole offsets. -/
def holeSegments (pts : List IVert) : List ℕ → List (List IVert)
  | [] => []
  | [a] => [pts.drop a]
  | a :: b :: rest => (pts.drop a).take (b - a) :: holeSegments pts (b :: rest)

/-- Modelled from the spec (§4.2): the Triangulation Engine (the `earcutr`
crate is not part of this repository's sources).  Returns the working ring
fed to the ear-clipping loop, the emitted index triples, and the leftover
ring at which clipping stopped.  A structurally invalid exterior ring —
fewer than 3 distinct points after de-duplication (§4.2 Errors, §7) — yields
an empty result.  The spatial-index fast path is omitted: per §4.8/§9 it is a
performance strategy whose results are identical to the direct scan. -/
def earcutTrace (vertices : List ℤ) (hole_indices : List ℕ) :
    List IVert × List (ℕ × ℕ × ℕ) × List IVert :=
  let pts := enumCoords vertices
  let outerLen := hole_indices.head?.getD pts.length
  let ext := buildRing (pts.take outerLen)
  if ((ext.map Prod.snd).dedup).length < 3 then (ext, [], ext)
  else
    let ext2 := orientCCW ext
    let holes := (holeSegments pts hole_indices).map fun s => orientCW (buildRing s)
    let ring := holes.foldl spliceHole ext2
    let r := earClipFuel ring.length ring
    (ring, r.1, r.2)

/-- Flattens index triples into the flat index list the engine returns. -/
def flatTriples (ts : List (ℕ × ℕ × ℕ)) : List ℕ :=
  ts.flatMap fun t => [t.1, t.2.1, t.2.2]

/-- Modelled from the spec: the `earcutr::earcut` entry point — flat vertex
buffer and hole offsets in, flat triangle-index list out. -/
def earcut (vertices : List ℤ) (hole_indices : List ℕ) : List ℕ :=
  flatTriples (earcutTrace vertices hole_indices).2.1

/-- The `Raw` result struct of `triangulate_earcut.rs`. -/
structure Raw where
  vertices : List ℤ
  triangle_indices : List ℕ
deriving DecidableEq

/-- Source method `triangulate_earcut_raw` for `Polygon`: flatten the rings,
run `earcutr::earcut` on them, return the buffer and the indices.  (The
`.unwrap()` on the engine's result never fires: the spec's engine raises no
errors, so the model of `earcut` is total.) -/
def triangulate_earcut_raw (p : Polygon) : Raw :=
  let input := polygon_to_earcutr_input p
  ⟨input.vertexes, earcut input.vertexes input.interior_indexes⟩

/-- Number of triangles described by a raw result. -/
def numTriangles (raw : Raw) : ℕ :=
  raw.triangle_indices.length / 3

/-- Total number of coordinates of the polygon, exterior plus holes
(the `coords_count` of `CoordsIter` used by `polygon_to_earcutr_input`). -/
def coordsCount (p : Polygon) : ℕ :=
  p.exterior.coords.length + (p.interiors.map fun ls => ls.coords.length).sum

/-- The `geo` `Triangle` tuple struct: three coordinates, in order. -/
structure Triangle where
  a : Coord
  b : Coord
  c : Coord
deriving DecidableEq

/-- The `Iter` tuple struct of `triangulate_earcut.rs`, wrapping a `Raw`. -/
structure Iter where
  raw : Raw
deriving DecidableEq

/-- Rust `Vec::pop`: removes and returns the last element, if any. -/
def popLast (l : List ℕ) : Option (ℕ × List ℕ) :=
  match l.getLast? with
  | none => none
  | some x => some (x, l.dropLast)

/-- Source method `Iter::triangle_index_to_coord`: reads
`vertices[triangle_index * 2]` and `vertices[triangle_index * 2 + 1]`.
`none` models the out-of-bounds panic branch of the indexing. -/
def triangle_index_to_coord (it : Iter) (triangle_index : ℕ) : Option Coord :=
  match it.raw.vertices[triangle_index * 2]?, it.raw.vertices[triangle_index * 2 + 1]? with
  | some x, some y => some ⟨x, y⟩
  | _, _ => none

/-- Outcome of one `Iter::next` call: finished (with the mutated state),
a yielded triangle (with the mutated state), or an index-out-of-bounds
panic. -/
inductive NextResult where
  | done (it : Iter)
  | yield (t : Triangle) (it : Iter)
  | panicked
deriving DecidableEq

/-- Source method `Iter::next`: pops three indices off the end of
`triangle_indices` (returning `None` as soon as a pop fails, keeping the
already-popped state), then builds the triangle from the three coordinate
lookups. -/
def Iter.next (it : Iter) : NextResult :=
  match popLast it.raw.triangle_indices with
  | none => .done it
  | some (i1, r1) =>
    match popLast r1 with
    | none => .done ⟨⟨it.raw.vertices, r1⟩⟩
    | some (i2, r2) =>
      match popLast r2 with
      | none => .done ⟨⟨it.raw.vertices, r2⟩⟩
      | some (i3, r3) =>
        let it' : Iter := ⟨⟨it.raw.vertices, r3⟩⟩
        match triangle_index_to_coord it' i1, triangle_index_to_coord it' i2,
            triangle_index_to_coord it' i3 with
        | some c1, some c2, some c3 => .yield ⟨c1, c2, c3⟩ it'
        | _, _, _ => .panicked

/-- The iterator state after one `next` call (unchanged if `next` panics —
in Rust the program aborts there). -/
def Iter.advance (it : Iter) : Iter :=
  match Iter.next it with
  | .done it' => it'
  | .yield _ it' => it'
  | .panicked => it

/-- Fuel-structured driver collecting every triangle the iterator yields;
`Except.error ()` models a panic during iteration.  The fuel only makes the
recursion structural; `Iter.collect` supplies enough. -/
def Iter.collectFuel : ℕ → Iter → Except Unit (List Triangle)
  | 0, _ => .ok []
  | fuel + 1, it =>
    match Iter.next it with
    | .panicked => .error ()
    | .done _ => .ok []
    | .yield t it' => (Iter.collectFuel fuel it').map fun ts => t :: ts

/-- Source method `triangulate_earcut` is `triangulate_earcut_iter().collect()`;
this drives the iterator to exhaustion. -/
def Iter.collect (it : Iter) : Except Unit (List Triangle) :=
  Iter.collectFuel it.raw.triangle_indices.length it

/-- Number of triangles yielded before the iterator finishes or panics. -/
def Iter.yieldCountFuel : ℕ → Iter → ℕ
  | 0, _ => 0
  | fuel + 1, it =>
    match Iter.next it with
    | .yield _ it' => Iter.yieldCountFuel fuel it' + 1
    | _ => 0

/-- Number of triangles yielded by repeatedly calling `next` from a state. -/
def Iter.yieldCount (it : Iter) : ℕ :=
  Iter.yieldCountFuel it.raw.triangle_indices.length it

/-- Source method `triangulate_earcut` for `Polygon` (collects the iterator
over the raw result). -/
def triangulate_earcut (p : Polygon) : Except Unit (List Triangle) :=
  Iter.collect ⟨triangulate_earcut_raw p⟩

/-- Chunks a flat index list into consecutive triples. -/
def chunk3 : List ℕ → List (ℕ × ℕ × ℕ)
  | a :: b :: c :: rest => (a, b, c) :: chunk3 rest
  | _ => []

/-- The (x, y) pair at vertex index `i` of a flat buffer (the implied vertex
array of §6: index = position/2). -/
def coordAt (v : List ℤ) (i : ℕ) : Coord :=
  ⟨v.getD (i * 2) 0, v.getD (i * 2 + 1) 0⟩

/-- Follows the spec's words (§4.3, §6): the triangles obtained by looking up
each consecutive index triple's three (x, y) pairs in the flat buffer, in
triple order and in each triple's component order. -/
def specTrianglesForward (raw : Raw) : List Triangle :=
  (chunk3 raw.triangle_indices).map fun t =>
    ⟨coordAt raw.vertices t.1, coordAt raw.vertices t.2.1, coordAt raw.vertices t.2.2⟩

/-- The triangles obtained by looking up each consecutive index triple's
three (x, y) pairs in reversed component order. -/
def specTrianglesReversed (raw : Raw) : List Triangle :=
  (chunk3 raw.triangle_indices).map fun t =>
    ⟨coordAt raw.vertices t.2.2, coordAt raw.vertices t.2.1, coordAt raw.vertices t.1⟩

/-- Twice the (absolute) area of the triangle described by an index triple
over a flat buffer. -/
def triangleArea2 (v : List ℤ) (t : ℕ × ℕ × ℕ) : ℤ :=
  |cross (coordAt v t.1) (coordAt v t.2.1) (coordAt v t.2.2)|

/-- Twice the total area of the triangles of a raw result. -/
def areaSum2 (raw : Raw) : ℤ :=
  ((chunk3 raw.triangle_indices).map (triangleArea2 raw.vertices)).sum

/-- Precondition of the coordinate lookups: every triangle index addresses a
full (x, y) pair inside the flat buffer. -/
abbrev InBounds (raw : Raw) : Prop :=
  ∀ i ∈ raw.triangle_indices, 2 * i + 1 < raw.vertices.length

/-- The closed 5-point unit-square polygon of the spec's scenario (§8) and of
the source doctests/tests. -/
def squarePolygon : Polygon :=
  ⟨⟨[⟨0, 0⟩, ⟨10, 0⟩, ⟨10, 10⟩, ⟨0, 10⟩, ⟨0, 0⟩]⟩, []⟩

/-- A square polygon with two triangular holes, used as a concrete instance
for the hole-offset invariant. -/
def twoHolePolygon : Polygon :=
  ⟨⟨[⟨0, 0⟩, ⟨10, 0⟩, ⟨10, 10⟩, ⟨0, 10⟩, ⟨0, 0⟩]⟩,
   [⟨[⟨1, 1⟩, ⟨2, 1⟩, ⟨1, 2⟩, ⟨1, 1⟩]⟩, ⟨[⟨5, 5⟩, ⟨6, 5⟩, ⟨5, 6⟩, ⟨5, 5⟩]⟩]⟩

/-- The raw result for the unit square exactly as printed in the source
doctest of `triangulate_earcut_raw` (its `vertices`/`triangle_indices`). -/
def squareRawDoc : Raw :=
  ⟨[0, 0, 10, 0, 10, 10, 0, 10, 0, 0], [3, 0, 1, 1, 2, 3]⟩

/-- A polygon whose exterior ring has only 2 distinct points. -/
def degeneratePolygon : Polygon :=
  ⟨⟨[⟨0, 0⟩, ⟨1, 1⟩, ⟨0, 0⟩]⟩, []⟩

/-- The initial working ring the engine's ear-clipping loop starts from, for
a polygon's flattened input. -/
def earcutInitialRing (p : Polygon) : List IVert :=
  (earcutTrace (polygon_to_earcutr_input p).vertexes
    (polygon_to_earcutr_input p).interior_indexes).1

/-- The leftover working ring at which the engine's ear-clipping loop
stopped, for a polygon's flattened input. -/
def earcutLeftover (p : Polygon) : List IVert :=
  (earcutTrace (polygon_to_earcutr_input p).vertexes
    (polygon_to_earcutr_input p).interior_indexes).2.2

lemma foldl_push_pairs (l : List Coord) (vs : List ℤ) :
    l.foldl (fun acc coord => acc ++ [coord.x, coord.y]) vs
      = vs ++ l.flatMap (fun c => [c.x, c.y]) := by
  induction l generalizing vs with
  | nil => simp
  | cons hd tl ih => simp [ih, List.flatMap_cons]

lemma flat_line_string_coords_2_eq (ls : LineString) (vs : List ℤ) :
    flat_line_string_coords_2 ls vs = vs ++ flatCoords ls := by
  unfold flat_line_string_coords_2 flatCoords
  exact foldl_push_pairs ls.coords vs

lemma flatCoords_length (ls : LineString) :
    (flatCoords ls).length = 2 * ls.coords.length := by
  unfold flatCoords
  induction ls.coords with
  | nil => simp
  | cons hd tl ih => simp [List.flatMap_cons, ih]; omega

/-- Closed form of the interior-ring fold inside `polygon_to_earcutr_input`. -/
lemma interiors_foldl_char (ints : List LineString) (vs : List ℤ) (idx : List ℕ) :
    ints.foldl
      (fun acc interior =>
        (flat_line_string_coords_2 interior acc.1, acc.2 ++ [acc.1.length / 2]))
      (vs, idx)
      = (vs ++ (ints.map flatCoords).flatten,
         idx ++ (List.range ints.length).map
           (fun i => (vs.length + 2 * (((ints.take i).map (fun ls => ls.coords.length)).sum)) / 2)) := by
  induction ints generalizing vs idx with
  | nil => simp
  | cons hd tl ih =>
    rw [List.foldl_cons, ih]
    refine Prod.ext ?_ ?_
    · simp [flat_line_string_coords_2_eq]
    · have hmap : List.map
          (fun i => ((vs ++ flatCoords hd).length +
            2 * ((List.map (fun ls => ls.coords.length) (List.take i tl)).sum)) / 2)
          (List.range tl.length)
        = List.map
          ((fun i => (vs.length +
              2 * ((List.map (fun ls => ls.coords.length) (List.take i (hd :: tl))).sum)) / 2) ∘ Nat.succ)
          (List.range tl.length) := by
        refine List.map_congr_left ?_
        intro i _
        simp only [Function.comp_apply, List.take_succ_cons, List.map_cons, List.sum_cons,
          List.length_append, flatCoords_length]
        omega
      simp only [flat_line_string_coords_2_eq, hmap, List.length_cons,
        List.range_succ_eq_map, List.map_cons, List.map_map]
      simp

/-- The vertex buffer produced by the Ring Flattener, in closed form. -/
lemma polygon_input_vertexes (p : Polygon) :
    (polygon_to_earcutr_input p).vertexes
      = flatCoords p.exterior ++ (p.interiors.map flatCoords).flatten := by
  simp only [polygon_to_earcutr_input]
  rw [interiors_foldl_char]
  simp [flat_line_string_coords_2_eq]

/-- The hole offsets produced by the Ring Flattener, in closed form. -/
lemma polygon_input_indexes (p : Polygon) :
    (polygon_to_earcutr_input p).interior_indexes
      = (List.range p.interiors.length).map
          (fun i => p.exterior.coords.length
            + ((p.interiors.take i).map (fun ls => ls.coords.length)).sum) := by
  simp only [polygon_to_earcutr_input]
  rw [interiors_foldl_char]
  simp only [List.nil_append]
  refine List.map_congr_left ?_
  intro i _
  simp only [flat_line_string_coords_2_eq, List.nil_append, flatCoords_length]
  omega

/-- C1: the Ring Flattener emits the exterior ring's coordinates in order,
then each interior ring's coordinates in order, and `Hole Offsets[i]` equals
the vertex count of the exterior ring plus all interior rings before ring `i`. -/
theorem c1_ring_flattener_output (p : Polygon) :
    (polygon_to_earcutr_input p).vertexes
      = flatCoords p.exterior ++ (p.interiors.map flatCoords).flatten
    ∧ (polygon_to_earcutr_input p).interior_indexes
      = (List.range p.interiors.length).map
          (fun i => p.exterior.coords.length
            + ((p.interiors.take i).map (fun ls => ls.coords.length)).sum) :=
  ⟨polygon_input_vertexes p, polygon_input_indexes p⟩

/-- C7: the Ring Flattener is a pure function of the polygon value — two runs
on equal input produce identical flat buffers and hole offsets. -/
theorem c7_flattener_deterministic (p q : Polygon) (h : p = q) :
    polygon_to_earcutr_input p = polygon_to_earcutr_input q := by
  rw [h]

theorem c7_flattener_deterministic_witness :
    squarePolygon = squarePolygon ∧
      polygon_to_earcutr_input squarePolygon = polygon_to_earcutr_input squarePolygon :=
  ⟨rfl, c7_flattener_deterministic squarePolygon squarePolygon rfl⟩

/-- C8: for a polygon whose interior rings are nonempty (every spec `Ring`
has at least three distinct points), the hole offsets are strictly increasing
and the first offset equals the exterior ring's vertex count. -/
theorem c8_hole_offsets_invariant (p : Polygon)
    (h : ∀ ls ∈ p.interiors, ls.coords ≠ []) :
    List.Pairwise (· < ·) (polygon_to_earcutr_input p).interior_indexes ∧
    (p.interiors ≠ [] →
      (polygon_to_earcutr_input p).interior_indexes.head?
        = some p.exterior.coords.length) := by
  rw [polygon_input_indexes]
  constructor
  · rw [List.pairwise_map]
    refine (List.pairwise_lt_range _).imp_of_mem ?_
    intro i j hi hj hij
    have hjn : j < p.interiors.length := List.mem_range.mp hj
    have hd : p.interiors.take j
        = p.interiors.take i ++ ((p.interiors.drop i).take (j - i)) := by
      rw [← List.take_add]
      congr 1
      omega
    rw [hd]
    simp only [List.map_append, List.sum_append]
    have hmidlen : ((p.interiors.drop i).take (j - i)).length
        = min (j - i) (p.interiors.length - i) := by
      simp [List.length_take, List.length_drop]
    have hmid : ((p.interiors.drop i).take (j - i)) ≠ [] := by
      intro hnil
      rw [hnil] at hmidlen
      simp only [List.length_nil] at hmidlen
      omega
    obtain ⟨m, rest, hm⟩ := List.exists_cons_of_ne_nil hmid
    have hmem : m ∈ p.interiors := by
      have hmem' : m ∈ (p.interiors.drop i).take (j - i) := by
        rw [hm]; exact List.mem_cons_self _ _
      exact List.drop_subset _ _ (List.take_subset _ _ hmem')
    have hpos : 0 < m.coords.length := List.length_pos.mpr (h m hmem)
    rw [hm]
    simp only [List.map_cons, List.sum_cons]
    omega
  · intro hne
    have hlen : 0 < p.interiors.length := List.length_pos.mpr hne
    obtain ⟨n, hn⟩ := Nat.exists_eq_succ_of_ne_zero (Nat.pos_iff_ne_zero.mp hlen)
    rw [hn, List.range_succ_eq_map]
    simp

theorem c8_hole_offsets_invariant_witness :
    (∀ ls ∈ twoHolePolygon.interiors, ls.coords ≠ []) ∧
    (List.Pairwise (· < ·) (polygon_to_earcutr_input twoHolePolygon).interior_indexes ∧
     (twoHolePolygon.interiors ≠ [] →
       (polygon_to_earcutr_input twoHolePolygon).interior_indexes.head?
         = some twoHolePolygon.exterior.coords.length)) :=
  ⟨by decide, c8_hole_offsets_invariant twoHolePolygon (by decide)⟩

lemma dedupAux_subset (prev : Coord) (l : List IVert) :
    ∀ x ∈ dedupAux prev l, x ∈ l := by
  induction l generalizing prev with
  | nil => simp [dedupAux]
  | cons hd tl ih =>
    intro x hx
    simp only [dedupAux] at hx
    split at hx
    · exact List.mem_cons_of_mem _ (ih _ x hx)
    · rcases List.mem_cons.mp hx with h | h
      · exact h ▸ List.mem_cons_self _ _
      · exact List.mem_cons_of_mem _ (ih _ x h)

lemma dropClosing_subset (l : List IVert) : ∀ x ∈ dropClosing l, x ∈ l := by
  intro x hx
  unfold dropClosing at hx
  split at hx
  · split at hx
    · exact (List.dropLast_sublist l).subset hx
    · exact hx
  · exact hx

lemma buildRing_subset (l : List IVert) : ∀ x ∈ buildRing l, x ∈ l := by
  intro x hx
  cases l with
  | nil => simp [buildRing] at hx
  | cons v rest =>
    have hx' : x ∈ v :: dedupAux v.2 rest := dropClosing_subset _ x hx
    rcases List.mem_cons.mp hx' with h | h
    · exact h ▸ List.mem_cons_self _ _
    · exact List.mem_cons_of_mem _ (dedupAux_subset _ _ x h)

lemma dedup_length_le_of_subset {l m : List Coord} (h : l ⊆ m) :
    l.dedup.length ≤ m.dedup.length := by
  rw [← List.card_toFinset, ← List.card_toFinset]
  refine Finset.card_le_card ?_
  intro x hx
  rw [List.mem_toFinset] at hx ⊢
  exact h hx

lemma unflatten_flatCoords_append (ls : LineString) (r : List ℤ) :
    unflatten (flatCoords ls ++ r) = ls.coords ++ unflatten r := by
  unfold flatCoords
  induction ls.coords with
  | nil => simp
  | cons hd tl ih =>
    have hsplit : (hd :: tl).flatMap (fun c => [c.x, c.y]) ++ r
        = hd.x :: hd.y :: ((tl.flatMap fun c => [c.x, c.y]) ++ r) := by
      simp
    rw [hsplit, unflatten, ih]
    rfl

/-- The engine's exterior segment of a flattened polygon is exactly the
exterior ring's coordinate list. -/
lemma exterior_ring_coords (p : Polygon) :
    ((enumCoords (polygon_to_earcutr_input p).vertexes).take
        ((polygon_to_earcutr_input p).interior_indexes.head?.getD
          (enumCoords (polygon_to_earcutr_input p).vertexes).length)).map Prod.snd
      = p.exterior.coords := by
  have hv := polygon_input_vertexes p
  have hi := polygon_input_indexes p
  cases hints : p.interiors with
  | nil =>
    rw [hints] at hv hi
    simp only [List.map_nil, List.flatten_nil, List.append_nil] at hv
    simp only [List.length_nil, List.range_zero, List.map_nil] at hi ⊢
    rw [hi]
    simp only [List.head?_nil, Option.getD_none, List.take_length]
    rw [enumCoords, List.enum_map_snd, hv]
    have h2 := unflatten_flatCoords_append p.exterior []
    simpa [unflatten] using h2
  | cons i0 tl =>
    have hh : (polygon_to_earcutr_input p).interior_indexes.head?
        = some p.exterior.coords.length := by
      rw [hi, hints, List.length_cons, List.range_succ_eq_map]
      simp
    rw [hh]
    simp only [Option.getD_some]
    rw [List.map_take, enumCoords, List.enum_map_snd, hv,
      unflatten_flatCoords_append]
    exact List.take_left' rfl

/-- If the degeneracy check fires, the engine emits no triples. -/
lemma earcutTrace_degenerate {vertices : List ℤ} {hole_indices : List ℕ}
    (h : (((buildRing ((enumCoords vertices).take
        (hole_indices.head?.getD (enumCoords vertices).length))).map Prod.snd).dedup).length < 3) :
    (earcutTrace vertices hole_indices).2.1 = [] := by
  simp only [earcutTrace]
  rw [if_pos h]

/-- C2: a polygon whose exterior ring has fewer than 3 distinct points
triangulates to an empty result — no triangles and no failure (the model is
total; the panic branch of `.unwrap()` is never taken because the engine
raises no errors). -/
theorem c2_degenerate_exterior_empty (p : Polygon)
    (h : p.exterior.coords.dedup.length < 3) :
    (triangulate_earcut_raw p).triangle_indices = []
    ∧ triangulate_earcut p = Except.ok [] := by
  have hsub : ((buildRing ((enumCoords (polygon_to_earcutr_input p).vertexes).take
      ((polygon_to_earcutr_input p).interior_indexes.head?.getD
        (enumCoords (polygon_to_earcutr_input p).vertexes).length))).map Prod.snd)
      ⊆ p.exterior.coords := by
    intro x hx
    rw [← exterior_ring_coords p]
    rcases List.mem_map.mp hx with ⟨iv, hiv, hxeq⟩
    exact List.mem_map.mpr ⟨iv, buildRing_subset _ iv hiv, hxeq⟩
  have hlt : (((buildRing ((enumCoords (polygon_to_earcutr_input p).vertexes).take
      ((polygon_to_earcutr_input p).interior_indexes.head?.getD
        (enumCoords (polygon_to_earcutr_input p).vertexes).length))).map Prod.snd).dedup).length
      < 3 :=
    lt_of_le_of_lt (dedup_length_le_of_subset hsub) h
  have hti : (triangulate_earcut_raw p).triangle_indices = [] := by
    show earcut (polygon_to_earcutr_input p).vertexes
      (polygon_to_earcutr_input p).interior_indexes = []
    unfold earcut
    rw [earcutTrace_degenerate hlt]
    rfl
  refine ⟨hti, ?_⟩
  unfold triangulate_earcut Iter.collect
  have : (⟨triangulate_earcut_raw p⟩ : Iter).raw.triangle_indices = [] := hti
  rw [this]
  rfl

theorem c2_degenerate_exterior_empty_witness :
    degeneratePolygon.exterior.coords.dedup.length < 3 ∧
    ((triangulate_earcut_raw degeneratePolygon).triangle_indices = []
      ∧ triangulate_earcut degeneratePolygon = Except.ok []) :=
  ⟨by decide, c2_degenerate_exterior_empty degeneratePolygon (by decide)⟩

/-- C3: the closed 5-point unit-square polygon triangulates to exactly 2
triangles whose areas sum to 100. -/
theorem c3_unit_square_two_triangles :
    numTriangles (triangulate_earcut_raw squarePolygon) = 2 ∧
    ((areaSum2 (triangulate_earcut_raw squarePolygon) : ℚ)) / 2 = 100 := by
  constructor
  · rfl
  · have h : areaSum2 (triangulate_earcut_raw squarePolygon) = 200 := by rfl
    rw [h]
    norm_num

lemma flatTriples_length (ts : List (ℕ × ℕ × ℕ)) :
    (flatTriples ts).length = 3 * ts.length := by
  unfold flatTriples
  induction ts with
  | nil => simp
  | cons hd tl ih =>
    simp only [List.flatMap_cons, List.length_append, List.length_cons, ih]
    simp
    omega

/-- Each clipped ear removes exactly one vertex: emitted triples plus the
leftover ring account for the whole starting ring. -/
lemma earClipFuel_length (fuel : ℕ) (ring : List IVert) :
    (earClipFuel fuel ring).1.length + (earClipFuel fuel ring).2.length
      = ring.length := by
  induction fuel generalizing ring with
  | zero => simp [earClipFuel]
  | succ fuel ih =>
    simp only [earClipFuel]
    split
    · simp
    · rename_i hlen
      split
      · simp
      · rename_i i hfind
        have hi : i < ring.length := by
          have := List.mem_of_find?_eq_some hfind
          exact List.mem_range.mp this
        have herase : (ring.eraseIdx i).length = ring.length - 1 := by
          rw [List.length_eraseIdx]
          simp [hi]
        have := ih (ring.eraseIdx i)
        simp only [List.length_cons]
        omega

lemma earClip_run_count (ring : List IVert)
    (h : (earClipFuel ring.length ring).2.length = 2) :
    (earClipFuel ring.length ring).1.length = ring.length - 2 := by
  have := earClipFuel_length ring.length ring
  omega

lemma earcutTrace_count (vertices : List ℤ) (hole_indices : List ℕ)
    (h : (earcutTrace vertices hole_indices).2.2.length = 2) :
    (earcutTrace vertices hole_indices).2.1.length
      = (earcutTrace vertices hole_indices).1.length - 2 := by
  simp only [earcutTrace] at h ⊢
  split_ifs at h ⊢ with hc
  · dsimp only at h ⊢
    simp only [List.length_nil]
    omega
  · dsimp only at h ⊢
    exact earClip_run_count _ h

/-- C4 counterexample: for the closed 5-point unit square (V = 5 total
vertices, H = 0 holes) the output has 2 triangles, not V - 2 - 2·H = 3.
(The source doctest of `triangulate_earcut_raw` shows the same: 6 triangle
indices for the 5-point square.) -/
theorem c4_triangle_count_counterexample :
    ¬ (numTriangles (triangulate_earcut_raw squarePolygon)
        = coordsCount squarePolygon - 2 - 2 * squarePolygon.interiors.length) := by
  decide

/-- C4 amended: whenever the ear-clipping loop runs to completion (the
working ring is reduced to 2 vertices), the number of output triangles is
the initial working-ring size minus 2.  (For the closed unit square that
ring has 4 vertices — the closing duplicate is dropped — giving 2
triangles; the claimed V - 2 - 2·H both over-counts closing duplicates and
carries the wrong sign on H, since each bridged hole adds two duplicated
vertices to the working ring.) -/
theorem c4_triangle_count_amended (p : Polygon)
    (h : (earcutLeftover p).length = 2) :
    numTriangles (triangulate_earcut_raw p) = (earcutInitialRing p).length - 2 := by
  unfold earcutLeftover at h
  show (earcut (polygon_to_earcutr_input p).vertexes
      (polygon_to_earcutr_input p).interior_indexes).length / 3
    = (earcutInitialRing p).length - 2
  unfold earcut earcutInitialRing
  rw [flatTriples_length, earcutTrace_count _ _ h]
  omega

theorem c4_triangle_count_amended_witness :
    (earcutLeftover squarePolygon).length = 2 ∧
    numTriangles (triangulate_earcut_raw squarePolygon)
      = (earcutInitialRing squarePolygon).length - 2 :=
  ⟨by decide, c4_triangle_count_amended squarePolygon (by decide)⟩

lemma popLast_concat (l : List ℕ) (x : ℕ) : popLast (l ++ [x]) = some (x, l) := by
  simp [popLast, List.getLast?_concat, List.dropLast_concat]

lemma next_of_short (v : List ℤ) (l : List ℕ) (h : l.length < 3) :
    Iter.next ⟨⟨v, l⟩⟩ = .done ⟨⟨v, []⟩⟩ := by
  rcases l with _ | ⟨a, _ | ⟨b, _ | ⟨c, rest⟩⟩⟩
  · rfl
  · rfl
  · rfl
  · simp only [List.length_cons] at h
    omega

lemma triangle_index_to_coord_of_lt (v : List ℤ) (idx : List ℕ) (i : ℕ)
    (h : 2 * i + 1 < v.length) :
    triangle_index_to_coord ⟨⟨v, idx⟩⟩ i = some (coordAt v i) := by
  unfold triangle_index_to_coord coordAt
  have h0 : i * 2 < v.length := by omega
  have h1 : i * 2 + 1 < v.length := by omega
  rw [List.getElem?_eq_getElem h0, List.getElem?_eq_getElem h1]
  simp [List.getD_eq_getElem?_getD, List.getElem?_eq_getElem, h0, h1]

lemma next_concat3 (v : List ℤ) (l : List ℕ) (a b c : ℕ)
    (ha : 2 * a + 1 < v.length) (hb : 2 * b + 1 < v.length)
    (hc : 2 * c + 1 < v.length) :
    Iter.next ⟨⟨v, l ++ [a, b, c]⟩⟩
      = .yield ⟨coordAt v c, coordAt v b, coordAt v a⟩ ⟨⟨v, l⟩⟩ := by
  have h3 : l ++ [a, b, c] = ((l ++ [a]) ++ [b]) ++ [c] := by simp
  unfold Iter.next
  simp only [h3, popLast_concat, triangle_index_to_coord_of_lt v l c hc,
    triangle_index_to_coord_of_lt v l b hb, triangle_index_to_coord_of_lt v l a ha]

lemma exists_concat3 (l : List ℕ) (h : 3 ≤ l.length) :
    ∃ l' a b c, l = l' ++ [a, b, c] := by
  rcases l.eq_nil_or_concat with rfl | ⟨l1, c, rfl⟩
  · simp at h
  rcases l1.eq_nil_or_concat with rfl | ⟨l2, b, rfl⟩
  · simp at h
  rcases l2.eq_nil_or_concat with rfl | ⟨l3, a, rfl⟩
  · simp at h
  · exact ⟨l3, a, b, c, by simp⟩

/-- Every `next` call either finishes (with fewer than 3 indices left,
clearing them) or consumes exactly the last three indices, yielding a
triangle or panicking. -/
lemma next_shape (v : List ℤ) (l : List ℕ) :
    (l.length < 3 ∧ Iter.next ⟨⟨v, l⟩⟩ = .done ⟨⟨v, []⟩⟩)
    ∨ (∃ l' a b c, l = l' ++ [a, b, c]
        ∧ (Iter.next ⟨⟨v, l⟩⟩ = .panicked
           ∨ ∃ t, Iter.next ⟨⟨v, l⟩⟩ = .yield t ⟨⟨v, l'⟩⟩)) := by
  by_cases h : l.length < 3
  · exact Or.inl ⟨h, next_of_short v l h⟩
  · right
    obtain ⟨l', a, b, c, rfl⟩ := exists_concat3 l (by omega)
    refine ⟨l', a, b, c, rfl, ?_⟩
    have h3 : l' ++ [a, b, c] = ((l' ++ [a]) ++ [b]) ++ [c] := by simp
    unfold Iter.next
    simp only [h3, popLast_concat]
    rcases e1 : triangle_index_to_coord ⟨⟨v, l'⟩⟩ c with _ | c1 <;>
      rcases e2 : triangle_index_to_coord ⟨⟨v, l'⟩⟩ b with _ | c2 <;>
        rcases e3 : triangle_index_to_coord ⟨⟨v, l'⟩⟩ a with _ | c3 <;>
          simp only [e1, e2, e3] <;>
            first
              | exact Or.inl trivial
              | exact Or.inl rfl
              | exact Or.inr ⟨_, rfl⟩

lemma collectFuel_nil (f : ℕ) (v : List ℤ) :
    Iter.collectFuel f ⟨⟨v, []⟩⟩ = .ok [] := by
  cases f with
  | zero => rfl
  | succ f => rfl

/-- Under the in-bounds precondition the iterator yields exactly
`⌊len/3⌋` triangles; proved for any sufficient fuel. -/
lemma yieldCountFuel_inBounds : ∀ (n f : ℕ) (v : List ℤ) (l : List ℕ),
    l.length ≤ n → l.length ≤ f → InBounds ⟨v, l⟩ →
    Iter.yieldCountFuel f ⟨⟨v, l⟩⟩ = l.length / 3 := by
  intro n
  induction n with
  | zero =>
    intro f v l hn hf hb
    have hl : l = [] := List.length_eq_zero.mp (by omega)
    subst hl
    cases f with
    | zero => rfl
    | succ f => rfl
  | succ n ih =>
    intro f v l hn hf hb
    by_cases hlt : l.length < 3
    · cases f with
      | zero =>
        have hl : l = [] := List.length_eq_zero.mp (by omega)
        subst hl
        rfl
      | succ f =>
        have hdone := next_of_short v l hlt
        simp only [Iter.yieldCountFuel, hdone]
        omega
    · obtain ⟨l', a, b, c, rfl⟩ := exists_concat3 l (by omega)
      have ha : 2 * a + 1 < v.length := hb a (by simp)
      have hbb : 2 * b + 1 < v.length := hb b (by simp)
      have hcc : 2 * c + 1 < v.length := hb c (by simp)
      have hnx := next_concat3 v l' a b c ha hbb hcc
      cases f with
      | zero =>
        exfalso
        simp only [List.length_append, List.length_cons, List.length_nil] at hf
        omega
      | succ f =>
        simp only [Iter.yieldCountFuel, hnx]
        have hn' : l'.length ≤ n := by
          simp only [List.length_append, List.length_cons, List.length_nil] at hn
          omega
        have hf' : l'.length ≤ f := by
          simp only [List.length_append, List.length_cons, List.length_nil] at hf
          omega
        have hb' : InBounds ⟨v, l'⟩ := fun i hi => hb i (by simp [hi])
        rw [ih f v l' hn' hf' hb']
        simp only [List.length_append, List.length_cons, List.length_nil]
        omega

/-- Under the in-bounds precondition a full iteration never panics;
proved for any sufficient fuel. -/
lemma collectFuel_ok_inBounds : ∀ (n f : ℕ) (v : List ℤ) (l : List ℕ),
    l.length ≤ n → l.length ≤ f → InBounds ⟨v, l⟩ →
    ∃ ts, Iter.collectFuel f ⟨⟨v, l⟩⟩ = .ok ts := by
  intro n
  induction n with
  | zero =>
    intro f v l hn hf hb
    have hl : l = [] := List.length_eq_zero.mp (by omega)
    subst hl
    exact ⟨[], collectFuel_nil f v⟩
  | succ n ih =>
    intro f v l hn hf hb
    by_cases hlt : l.length < 3
    · cases f with
      | zero =>
        have hl : l = [] := List.length_eq_zero.mp (by omega)
        subst hl
        exact ⟨[], rfl⟩
      | succ f =>
        have hdone := next_of_short v l hlt
        simp only [Iter.collectFuel, hdone]
        exact ⟨[], rfl⟩
    · obtain ⟨l', a, b, c, rfl⟩ := exists_concat3 l (by omega)
      have ha : 2 * a + 1 < v.length := hb a (by simp)
      have hbb : 2 * b + 1 < v.length := hb b (by simp)
      have hcc : 2 * c + 1 < v.length := hb c (by simp)
      have hnx := next_concat3 v l' a b c ha hbb hcc
      cases f with
      | zero =>
        exfalso
        simp only [List.length_append, List.length_cons, List.length_nil] at hf
        omega
      | succ f =>
        simp only [Iter.collectFuel, hnx]
        have hn' : l'.length ≤ n := by
          simp only [List.length_append, List.length_cons, List.length_nil] at hn
          omega
        have hf' : l'.length ≤ f := by
          simp only [List.length_append, List.length_cons, List.length_nil] at hf
          omega
        have hb' : InBounds ⟨v, l'⟩ := fun i hi => hb i (by simp [hi])
        obtain ⟨ts, hts⟩ := ih f v l' hn' hf' hb'
        exact ⟨_, by rw [hts]; rfl⟩

lemma flatTriples_append (ts : List (ℕ × ℕ × ℕ)) (t : ℕ × ℕ × ℕ) :
    flatTriples (ts ++ [t]) = flatTriples ts ++ [t.1, t.2.1, t.2.2] := by
  simp [flatTriples]

/-- Driving the iterator over a flat list built from triples yields exactly
those triples' triangles, each with components reversed, in reverse triple
order. -/
lemma collectFuel_flatTriples :
    ∀ (ts : List (ℕ × ℕ × ℕ)) (f : ℕ) (v : List ℤ),
      (flatTriples ts).length ≤ f → InBounds ⟨v, flatTriples ts⟩ →
      Iter.collectFuel f ⟨⟨v, flatTriples ts⟩⟩
        = .ok ((ts.map fun t =>
            (⟨coordAt v t.2.2, coordAt v t.2.1, coordAt v t.1⟩ : Triangle)).reverse) := by
  intro ts
  induction ts using List.reverseRecOn with
  | nil =>
    intro f v _ _
    exact collectFuel_nil f v
  | append_singleton ts t ih =>
    intro f v hf hb
    obtain ⟨a, b, c⟩ := t
    rw [flatTriples_append] at hf hb ⊢
    have ha : 2 * a + 1 < v.length := hb a (by simp)
    have hbb : 2 * b + 1 < v.length := hb b (by simp)
    have hcc : 2 * c + 1 < v.length := hb c (by simp)
    have hlen : (flatTriples ts ++ [a, b, c]).length = (flatTriples ts).length + 3 := by
      simp
    cases f with
    | zero =>
      exfalso
      rw [hlen] at hf
      omega
    | succ f =>
      have hnx : Iter.next ⟨⟨v, flatTriples ts ++ [a, b, c]⟩⟩
          = .yield ⟨coordAt v c, coordAt v b, coordAt v a⟩ ⟨⟨v, flatTriples ts⟩⟩ := by
        have := next_concat3 v (flatTriples ts) a b c ha hbb hcc
        simpa using this
      simp only [Iter.collectFuel, hnx]
      have hf' : (flatTriples ts).length ≤ f := by
        rw [hlen] at hf
        omega
      have hb' : InBounds ⟨v, flatTriples ts⟩ := fun i hi => hb i (by simp [hi])
      rw [ih f v hf' hb']
      simp only [List.map_append, List.reverse_append, List.map_cons, List.map_nil,
        List.reverse_cons, List.reverse_nil, List.nil_append, List.singleton_append]
      rfl

lemma flatTriples_chunk3 : ∀ (n : ℕ) (l : List ℕ),
    l.length ≤ n → l.length % 3 = 0 → flatTriples (chunk3 l) = l := by
  intro n
  induction n with
  | zero =>
    intro l h _
    have hl : l = [] := List.length_eq_zero.mp (by omega)
    subst hl
    rfl
  | succ n ih =>
    intro l h h3
    rcases l with _ | ⟨a, _ | ⟨b, _ | ⟨c, rest⟩⟩⟩
    · rfl
    · simp at h3
    · simp at h3
    · show flatTriples ((a, b, c) :: chunk3 rest) = a :: b :: c :: rest
      have hr : flatTriples (chunk3 rest) = rest := by
        refine ih rest ?_ ?_
        · simp only [List.length_cons] at h
          omega
        · simp only [List.length_cons] at h3 ⊢
          omega
      have hr' : ((chunk3 rest).flatMap fun t => [t.1, t.2.1, t.2.2]) = rest := hr
      simp [flatTriples, hr']

/-- One `next` call (whatever its outcome) never touches the vertex
buffer. -/
lemma advance_vertices (it : Iter) :
    (Iter.advance it).raw.vertices = it.raw.vertices := by
  obtain ⟨⟨v, l⟩⟩ := it
  unfold Iter.advance
  rcases next_shape v l with ⟨_, hd⟩ | ⟨l', a, b, c, rfl, hp | ⟨t, hy⟩⟩
  · rw [hd]
  · rw [hp]
  · rw [hy]

/-- C6: consuming the triangle sequence — any number of `next` calls — never
changes the flat vertex buffer. -/
theorem c6_iterator_preserves_vertices (it : Iter) (n : ℕ) :
    ((Iter.advance)^[n] it).raw.vertices = it.raw.vertices := by
  induction n generalizing it with
  | zero => rfl
  | succ n ih =>
    rw [Function.iterate_succ_apply]
    rw [ih (Iter.advance it), advance_vertices]

/-- C5 counterexample: on the square raw result printed in the source
doctest, the iterator's triangles (the doctest's own triangle list) are not,
as a multiset, the forward-order triple lookups — each triple is read in
reversed component order. -/
theorem c5_lossless_counterexample :
    Iter.collect ⟨squareRawDoc⟩
      = Except.ok [⟨⟨0, 10⟩, ⟨10, 10⟩, ⟨10, 0⟩⟩, ⟨⟨10, 0⟩, ⟨0, 0⟩, ⟨0, 10⟩⟩] ∧
    (↑([(⟨⟨0, 10⟩, ⟨10, 10⟩, ⟨10, 0⟩⟩ : Triangle), ⟨⟨10, 0⟩, ⟨0, 0⟩, ⟨0, 10⟩⟩])
        : Multiset Triangle)
      ≠ ↑(specTrianglesForward squareRawDoc) := by
  constructor
  · rfl
  · decide

/-- C5 amended: for a raw result whose index count is a multiple of 3 and
whose indices are in bounds, the collected triangle sequence is exactly the
consecutive-triple lookups with each triple's components reversed, emitted
in reverse triple order — so the triangle form is derived losslessly from
the raw form up to that reversal (and equals it as a multiset). -/
theorem c5_lossless_amended (raw : Raw)
    (h3 : raw.triangle_indices.length % 3 = 0) (hb : InBounds raw) :
    Iter.collect ⟨raw⟩ = Except.ok ((specTrianglesReversed raw).reverse) := by
  obtain ⟨v, l⟩ := raw
  have hfl : flatTriples (chunk3 l) = l := flatTriples_chunk3 l.length l le_rfl h3
  show Iter.collectFuel l.length ⟨⟨v, l⟩⟩ = _
  conv_lhs => rw [← hfl]
  rw [collectFuel_flatTriples (chunk3 l) (flatTriples (chunk3 l)).length v le_rfl
    (by rw [hfl]; exact hb)]
  rfl

theorem c5_lossless_amended_witness :
    squareRawDoc.triangle_indices.length % 3 = 0 ∧ InBounds squareRawDoc ∧
    Iter.collect ⟨squareRawDoc⟩
      = Except.ok ((specTrianglesReversed squareRawDoc).reverse) :=
  ⟨by decide, by decide, c5_lossless_amended squareRawDoc (by decide) (by decide)⟩

/-- C9 counterexample: a raw value with out-of-bounds indices hits the panic
branch, so the iterator yields 0 triangles rather than `⌊3/3⌋ = 1`. -/
theorem c9_yield_count_counterexample :
    ¬ (Iter.yieldCount ⟨⟨[], [0, 0, 0]⟩⟩
        = (⟨[], [0, 0, 0]⟩ : Raw).triangle_indices.length / 3) := by
  decide

/-- C9 amended: provided every index is in bounds, the iterator yields
exactly `⌊len/3⌋` triangles; and (unconditionally, also shown here) with
fewer than 3 indices remaining, `next` returns `None`, silently consuming
the leftover entries. -/
theorem c9_yield_count_amended (raw : Raw) (h : InBounds raw) :
    Iter.yieldCount ⟨raw⟩ = raw.triangle_indices.length / 3 ∧
    (raw.triangle_indices.length < 3 →
      Iter.next ⟨raw⟩ = .done ⟨⟨raw.vertices, []⟩⟩) := by
  obtain ⟨v, l⟩ := raw
  exact ⟨yieldCountFuel_inBounds l.length l.length v l le_rfl le_rfl h,
    fun hlt => next_of_short v l hlt⟩

theorem c9_yield_count_amended_witness :
    InBounds (⟨[0, 0, 10, 0, 10, 10], [0, 1]⟩ : Raw) ∧
    (Iter.yieldCount ⟨⟨[0, 0, 10, 0, 10, 10], [0, 1]⟩⟩
        = (⟨[0, 0, 10, 0, 10, 10], [0, 1]⟩ : Raw).triangle_indices.length / 3 ∧
     ((⟨[0, 0, 10, 0, 10, 10], [0, 1]⟩ : Raw).triangle_indices.length < 3 →
       Iter.next ⟨⟨[0, 0, 10, 0, 10, 10], [0, 1]⟩⟩
         = .done ⟨⟨[0, 0, 10, 0, 10, 10], []⟩⟩)) :=
  ⟨by decide, c9_yield_count_amended ⟨[0, 0, 10, 0, 10, 10], [0, 1]⟩ (by decide)⟩

/-- C10: under the precondition that every index `i` satisfies
`2·i + 1 < len(vertices)`, every coordinate lookup of the iterator is in
bounds (`triangle_index_to_coord` returns a value) and a full iteration
never reaches the panic branch. -/
theorem c10_lookups_in_bounds (raw : Raw) (h : InBounds raw) :
    (∀ i ∈ raw.triangle_indices, (triangle_index_to_coord ⟨raw⟩ i).isSome) ∧
    ∃ ts, Iter.collect ⟨raw⟩ = Except.ok ts := by
  obtain ⟨v, l⟩ := raw
  constructor
  · intro i hi
    rw [triangle_index_to_coord_of_lt v l i (h i hi)]
    rfl
  · exact collectFuel_ok_inBounds l.length l.length v l le_rfl le_rfl h

theorem c10_lookups_in_bounds_witness :
    InBounds squareRawDoc ∧
    ((∀ i ∈ squareRawDoc.triangle_indices,
        (triangle_index_to_coord ⟨squareRawDoc⟩ i).isSome) ∧
     ∃ ts, Iter.collect ⟨squareRawDoc⟩ = Except.ok ts) :=
  ⟨by decide, c10_lookups_in_bounds squareRawDoc (by decide)⟩

end Geo
